import Mathlib

/-!
Verification of the rir analysis framework core: the abstract state model
(`AbstractStack`, `AbstractEnvironment` from State.h), the dispatcher contract
(framework.h) and the forward / backward worklist drivers (analysis.h).

The embedding is shallow: C++ template parameters become Lean type parameters,
the abstract-value domain `AVALUE` becomes a type `V` together with an explicit
merge function `mv : V → V → V × Bool` (the updated own value and the
"own information changed" flag), and the sentinel constructors
`AVALUE::Absent()` / `AVALUE::top()` become explicit values `absent` / `topv`.
`std::map` containers become association lists with unique keys; heap pointers
disappear (clone = value copy); assertion failures and null-pointer
dereferences are modelled by `Option`, with `none` marking the fatal path.
-/

/-- First-match lookup in an association list, modelling `std::map::find`. -/
def lookupA {K V : Type} [DecidableEq K] : List (K × V) → K → Option V
  | [], _ => none
  | (k', v) :: rest, k => if k = k' then some v else lookupA rest k

/-- Insertion of a fresh key, modelling `std::map::emplace`/`insert` when the
key is known to be absent. -/
def insertA {K V : Type} (l : List (K × V)) (k : K) (v : V) : List (K × V) :=
  (k, v) :: l

/-- In-place update of the mapped value at the first occurrence of a key,
modelling mutation of a `std::map` entry through an iterator. -/
def updateA {K V : Type} [DecidableEq K] : List (K × V) → K → V → List (K × V)
  | [], _, _ => []
  | (k', v') :: rest, k, v =>
    if k = k' then (k', v) :: rest else (k', v') :: updateA rest k v

/-- Keys of an association list. -/
def keysA {K V : Type} (l : List (K × V)) : List K := l.map Prod.fst

theorem lookupA_eq_none_of_not_mem {K V : Type} [DecidableEq K]
    {l : List (K × V)} {k : K} (h : k ∉ keysA l) : lookupA l k = none := by
  induction l with
  | nil => rfl
  | cons p rest ih =>
    simp [keysA] at h
    simp [lookupA, h.1, ih (by simp [keysA, h.2])]

theorem lookupA_update_self {K V : Type} [DecidableEq K]
    {l : List (K × V)} {k : K} {a : V} (h : lookupA l k = some a) (v : V) :
    lookupA (updateA l k v) k = some v := by
  induction l with
  | nil => simp [lookupA] at h
  | cons p rest ih =>
    by_cases hk : k = p.1
    · simp [updateA, lookupA, hk]
    · simp [lookupA, hk] at h
      simp [updateA, lookupA, hk, ih h]

theorem lookupA_update_other {K V : Type} [DecidableEq K]
    (l : List (K × V)) {k k' : K} (h : k' ≠ k) (v : V) :
    lookupA (updateA l k v) k' = lookupA l k' := by
  induction l with
  | nil => rfl
  | cons p rest ih =>
    by_cases hk : k = p.1
    · subst hk
      simp [updateA, lookupA, h]
    · simp [updateA, lookupA, hk, ih]

theorem lookupA_update_none {K V : Type} [DecidableEq K]
    {l : List (K × V)} {k : K} (h : lookupA l k = none) (k' : K) (v : V) :
    lookupA (updateA l k v) k' = lookupA l k' := by
  induction l with
  | nil => rfl
  | cons p rest ih =>
    by_cases hk : k = p.1
    · simp [lookupA, hk] at h
    · by_cases hk' : k' = p.1
      · simp [updateA, lookupA, hk, hk']
      · simp [lookupA, hk] at h
        simp [updateA, lookupA, hk, hk', ih h]

/-! ## AbstractStack (State.h, lines 60–170)

The stack is a `std::deque` of abstract values, top at the front; we model it
as a `List V`, head = top.  `mergeWith` asserts equal depth and merges
element-wise; the assertion failure is modelled as `none`. -/

/-- The abstract stack: a sequence of abstract values, head = top. -/
def AbstractStack (V : Type) : Type := List V

/-- The element-wise merge loop of `AbstractStack::mergeWith`:
`result = stack_[i].mergeWith(other.stack_[i]) or result` over all indices. -/
def stackMergeLoop {V : Type} (mv : V → V → V × Bool) :
    List V → List V → List V × Bool
  | a :: s, b :: o =>
    let p := mv a b
    let r := stackMergeLoop mv s o
    (p.1 :: r.1, p.2 || r.2)
  | s, _ => (s, false)

/-- `AbstractStack::mergeWith` (State.h:91-98): asserts both stacks have the
same depth, then merges element-wise, returning whether any value changed.
The depth-mismatch assertion failure is `none`. -/
def AbstractStack.mergeWith {V : Type} (mv : V → V → V × Bool)
    (s o : AbstractStack V) : Option (AbstractStack V × Bool) :=
  if s.length = o.length then some (stackMergeLoop mv s o) else none

/-- Stack depth (`AbstractStack::depth`). -/
def AbstractStack.depth {V : Type} (s : AbstractStack V) : Nat := s.length

/-! ## AbstractEnvironment (State.h, lines 176–358)

A key→value map plus an optional parent environment.  The copy constructor
deep-copies the parent chain, which in a pure embedding is just the value. -/

/-- The abstract environment: a local binding map and an optional parent. -/
inductive AbstractEnvironment (K V : Type) : Type where
  | mk : List (K × V) → Option (AbstractEnvironment K V) → AbstractEnvironment K V

/-- Local bindings of an environment. -/
def AbstractEnvironment.entries {K V : Type} :
    AbstractEnvironment K V → List (K × V)
  | .mk env _ => env

/-- Parent of an environment, if any. -/
def AbstractEnvironment.parentOf {K V : Type} :
    AbstractEnvironment K V → Option (AbstractEnvironment K V)
  | .mk _ p => p

/-- `AbstractEnvironment::has` (State.h:268): local containment only. -/
def AbstractEnvironment.has {K V : Type} [DecidableEq K]
    (e : AbstractEnvironment K V) (k : K) : Bool :=
  (lookupA e.entries k).isSome

/-- First loop of `AbstractEnvironment::mergeWith` (State.h:226-239): iterate
over the other environment's bindings; a key missing locally is inserted as
`other_value.mergeWith(Absent())` and unconditionally counts as a change; a
key present on both sides is merged in place. -/
def mergeOtherLoop {K V : Type} [DecidableEq K] (mv : V → V → V × Bool)
    (absent : V) : List (K × V) → List (K × V) → List (K × V) × Bool
  | own, [] => (own, false)
  | own, (k, v) :: rest =>
    match lookupA own k with
    | none =>
      let missing := mv v absent
      let r := mergeOtherLoop mv absent (insertA own k missing.1) rest
      (r.1, true)
    | some a =>
      let m := mv a v
      let r := mergeOtherLoop mv absent (updateA own k m.1) rest
      (r.1, m.2 || r.2)

/-- Second loop of `AbstractEnvironment::mergeWith` (State.h:240-247): every
local binding whose key the other environment is missing is merged with
`Absent()` in place, contributing its change flag. -/
def mergeOwnOnlyLoop {K V : Type} [DecidableEq K] (mv : V → V → V × Bool)
    (absent : V) : List (K × V) → List (K × V) → List (K × V) × Bool
  | [], _ => ([], false)
  | (k, v) :: rest, other =>
    let r := mergeOwnOnlyLoop mv absent rest other
    match lookupA other k with
    | none =>
      let m := mv v absent
      ((k, m.1) :: r.1, m.2 || r.2)
    | some _ => ((k, v) :: r.1, r.2)

/-- `AbstractEnvironment::mergeWith` (State.h:223-260): the two binding loops
followed by the parent-chain merge.  A parent adopted from the other side is a
deep copy (a plain value here) and counts as a change. -/
def AbstractEnvironment.mergeWith {K V : Type} [DecidableEq K]
    (mv : V → V → V × Bool) (absent : V) :
    AbstractEnvironment K V → AbstractEnvironment K V →
    AbstractEnvironment K V × Bool
  | .mk env p, .mk oenv op =>
    let r1 := mergeOtherLoop mv absent env oenv
    let r2 := mergeOwnOnlyLoop mv absent r1.1 oenv
    let res := r1.2 || r2.2
    match p, op with
    | none, none => (.mk r2.1 none, res)
    | none, some q => (.mk r2.1 (some q), true)
    | some p', none => (.mk r2.1 (some p'), res)
    | some p', some q =>
      let pm := AbstractEnvironment.mergeWith mv absent p' q
      (.mk r2.1 (some pm.1), res || pm.2)

/-- `AbstractEnvironment::find` (State.h:276-285): local lookup first, then
the parent chain recursively, `top()` if absent everywhere. -/
def AbstractEnvironment.find {K V : Type} [DecidableEq K] (topv : V) :
    AbstractEnvironment K V → K → V
  | .mk env none, k =>
    match lookupA env k with
    | none => topv
    | some v => v
  | .mk env (some par), k =>
    match lookupA env k with
    | none => AbstractEnvironment.find topv par k
    | some v => v

/-- Const `AbstractEnvironment::operator[]` (State.h:289-295): local lookup
only, `top()` when the key is not locally bound.  Never consults the parent. -/
def AbstractEnvironment.getConst {K V : Type} [DecidableEq K] (topv : V)
    (e : AbstractEnvironment K V) (k : K) : V :=
  match lookupA e.entries k with
  | none => topv
  | some v => v

/-- Non-const `AbstractEnvironment::operator[]` (State.h:297-307): when the
key is not locally bound, insert `top()` locally, re-find it and return a
reference; returns the updated environment together with the read value. -/
def AbstractEnvironment.getMut {K V : Type} [DecidableEq K] (topv : V) :
    AbstractEnvironment K V → K → AbstractEnvironment K V × V
  | .mk env p, k =>
    match lookupA env k with
    | none =>
      let env' := insertA env k topv
      (.mk env' p, (lookupA env' k).getD topv)
    | some v => (.mk env p, v)

/-- `k` is bound somewhere in the environment chain. -/
def AbstractEnvironment.boundInChain {K V : Type} [DecidableEq K] :
    AbstractEnvironment K V → K → Bool
  | .mk env none, k => (lookupA env k).isSome
  | .mk env (some par), k =>
    match lookupA env k with
    | some _ => true
    | none => AbstractEnvironment.boundInChain par k

/-! ## Characterization of the environment merge -/

/-- The spec's per-key merge outcome ("Merge algorithm (must be preserved
exactly)" in §3 of the spec): keys on both sides merge directly, one-sided
keys merge with `Absent()`, and keys on neither side stay unbound. -/
def specMergedBinding {V : Type} (mv : V → V → V × Bool) (absent : V) :
    Option V → Option V → Option V
  | none, none => none
  | some a, none => some (mv a absent).1
  | none, some b => some (mv b absent).1
  | some a, some b => some (mv a b).1

/-- Structural induction on the environment's parent chain. -/
theorem env_induction {K V : Type} {motive : AbstractEnvironment K V → Prop}
    (h1 : ∀ env, motive (.mk env none))
    (h2 : ∀ env q, motive q → motive (.mk env (some q))) :
    ∀ e, motive e
  | .mk env none => h1 env
  | .mk env (some q) => h2 env q (env_induction h1 h2 q)

theorem mergeOtherLoop_lookup {K V : Type} [DecidableEq K]
    (mv : V → V → V × Bool) (absent : V) (other : List (K × V)) :
    ∀ own : List (K × V), (keysA other).Nodup → ∀ k,
      lookupA (mergeOtherLoop mv absent own other).1 k =
        match lookupA own k, lookupA other k with
        | none, none => none
        | some a, none => some a
        | none, some b => some (mv b absent).1
        | some a, some b => some (mv a b).1 := by
  induction other with
  | nil =>
    intro own _ k
    cases h : lookupA own k <;> simp [mergeOtherLoop, lookupA, h]
  | cons kv rest ih =>
    intro own hnd k
    obtain ⟨k0, b0⟩ := kv
    have hcons : (k0 :: keysA rest).Nodup := by simpa [keysA] using hnd
    have hnd' : (keysA rest).Nodup := (List.nodup_cons.mp hcons).2
    have hk0 : k0 ∉ keysA rest := (List.nodup_cons.mp hcons).1
    cases hown : lookupA own k0 with
    | none =>
      by_cases hk : k = k0
      · subst hk
        simp only [mergeOtherLoop, hown]
        rw [ih _ hnd']
        simp [insertA, lookupA, lookupA_eq_none_of_not_mem hk0, hown]
      · simp only [mergeOtherLoop, hown]
        rw [ih _ hnd']
        simp [insertA, lookupA, hk, hown]
    | some a =>
      by_cases hk : k = k0
      · subst hk
        simp only [mergeOtherLoop, hown]
        rw [ih _ hnd']
        rw [lookupA_update_self hown]
        simp [lookupA, lookupA_eq_none_of_not_mem hk0, hown]
      · simp only [mergeOtherLoop, hown]
        rw [ih _ hnd']
        rw [lookupA_update_other _ hk]
        simp [lookupA, hk]

theorem mergeOwnOnlyLoop_lookup {K V : Type} [DecidableEq K]
    (mv : V → V → V × Bool) (absent : V) (other : List (K × V)) :
    ∀ env : List (K × V), ∀ k,
      lookupA (mergeOwnOnlyLoop mv absent env other).1 k =
        match lookupA env k, lookupA other k with
        | none, _ => none
        | some a, some _ => some a
        | some a, none => some (mv a absent).1 := by
  intro env
  induction env with
  | nil => intro k; simp [mergeOwnOnlyLoop, lookupA]
  | cons kv rest ih =>
    intro k
    obtain ⟨k0, v0⟩ := kv
    by_cases hk : k = k0
    · subst hk
      cases hoth : lookupA other k <;>
        simp [mergeOwnOnlyLoop, hoth, lookupA]
    · cases hoth : lookupA other k0 <;>
        simp [mergeOwnOnlyLoop, hoth, lookupA, hk, ih]

theorem mergeWith_entries {K V : Type} [DecidableEq K]
    (mv : V → V → V × Bool) (absent : V) (env oenv : List (K × V))
    (p op : Option (AbstractEnvironment K V)) :
    (AbstractEnvironment.mergeWith mv absent (.mk env p) (.mk oenv op)).1.entries =
      (mergeOwnOnlyLoop mv absent (mergeOtherLoop mv absent env oenv).1 oenv).1 := by
  cases p <;> cases op <;> rfl

theorem mergeWith_parent {K V : Type} [DecidableEq K]
    (mv : V → V → V × Bool) (absent : V) (env oenv : List (K × V))
    (p op : Option (AbstractEnvironment K V)) :
    (AbstractEnvironment.mergeWith mv absent (.mk env p) (.mk oenv op)).1.parentOf =
      (match p, op with
       | none, none => none
       | none, some q => some q
       | some p', none => some p'
       | some p', some q =>
           some (AbstractEnvironment.mergeWith mv absent p' q).1) := by
  cases p <;> cases op <;> rfl

theorem mergeWith_lookup {K V : Type} [DecidableEq K]
    (mv : V → V → V × Bool) (absent : V) (env oenv : List (K × V))
    (p op : Option (AbstractEnvironment K V))
    (hnd : (keysA oenv).Nodup) (k : K) :
    lookupA (AbstractEnvironment.mergeWith mv absent
        (.mk env p) (.mk oenv op)).1.entries k =
      specMergedBinding mv absent (lookupA env k) (lookupA oenv k) := by
  rw [mergeWith_entries]
  rw [mergeOwnOnlyLoop_lookup]
  rw [mergeOtherLoop_lookup mv absent oenv env hnd]
  cases h1 : lookupA env k <;> cases h2 : lookupA oenv k <;>
    simp [specMergedBinding, h2]

theorem mergeOtherLoop_flag_of_insert {K V : Type} [DecidableEq K]
    (mv : V → V → V × Bool) (absent : V) (other : List (K × V)) :
    ∀ own : List (K × V), (∃ kv ∈ other, lookupA own kv.1 = none) →
      (mergeOtherLoop mv absent own other).2 = true := by
  induction other with
  | nil => intro own h; simp at h
  | cons kv rest ih =>
    intro own h
    obtain ⟨k0, b0⟩ := kv
    cases hown : lookupA own k0 with
    | none => simp [mergeOtherLoop, hown]
    | some a =>
      obtain ⟨w, hw, hwn⟩ := h
      rcases List.mem_cons.mp hw with hhd | htl
      · rw [hhd] at hwn
        simp at hwn
        rw [hwn] at hown
        cases hown
      · have hwn' : lookupA (updateA own k0 (mv a b0).1) w.1 = none := by
          by_cases hkw : w.1 = k0
          · rw [hkw] at hwn; rw [hwn] at hown; cases hown
          · rw [lookupA_update_other _ hkw]; exact hwn
        have := ih (updateA own k0 (mv a b0).1) ⟨w, htl, hwn'⟩
        simp [mergeOtherLoop, hown, this]

/-- Claim C1 — `AbstractEnvironment::mergeWith` implements exactly the
spec's merge algorithm: per key, the merged local binding follows
`specMergedBinding` (other-only keys appear as `other_value.merge(absent)`,
local-only keys are merged with `absent` in place, shared keys merge
directly); an other-only key always counts as a change; the parent chain is
adopted (as a deep copy) when only the other side has one — counting as a
change — merged recursively when both sides have one, and left untouched when
only the local side has one. -/
theorem c1_env_merge_algorithm {K V : Type} [DecidableEq K]
    (mv : V → V → V × Bool) (absent : V) (env oenv : List (K × V))
    (p op : Option (AbstractEnvironment K V))
    (hnd : (keysA oenv).Nodup) :
    (∀ k, lookupA (AbstractEnvironment.mergeWith mv absent
        (.mk env p) (.mk oenv op)).1.entries k =
          specMergedBinding mv absent (lookupA env k) (lookupA oenv k))
    ∧ (AbstractEnvironment.mergeWith mv absent
        (.mk env p) (.mk oenv op)).1.parentOf =
        (match p, op with
         | none, none => none
         | none, some q => some q
         | some p', none => some p'
         | some p', some q =>
             some (AbstractEnvironment.mergeWith mv absent p' q).1)
    ∧ ((∃ kv ∈ oenv, lookupA env kv.1 = none) →
        (AbstractEnvironment.mergeWith mv absent
          (.mk env p) (.mk oenv op)).2 = true)
    ∧ (∀ q, p = none → op = some q →
        (AbstractEnvironment.mergeWith mv absent
          (.mk env p) (.mk oenv op)).2 = true) := by
  refine ⟨mergeWith_lookup mv absent env oenv p op hnd,
          mergeWith_parent mv absent env oenv p op, ?_, ?_⟩
  · intro h
    have hflag := mergeOtherLoop_flag_of_insert mv absent oenv env h
    cases p <;> cases op <;>
      simp [AbstractEnvironment.mergeWith, hflag]
  · intro q hp hq
    subst hp; subst hq
    rfl

/-- Witness for C1 at a concrete instance: the Boolean or-domain
(merge = or, changed iff the own value flips from false to true,
absent = false), environments with two local bindings each. -/
theorem c1_env_merge_algorithm_witness :
    (∀ k, lookupA (AbstractEnvironment.mergeWith
        (fun a b => (a || b, !a && b)) false
        (.mk [(1, true), (2, false)] none)
        (.mk [(2, true), (3, true)] (some (.mk [(4, true)] none)))).1.entries k =
          specMergedBinding (fun a b => (a || b, !a && b)) false
            (lookupA [(1, true), (2, false)] k)
            (lookupA [(2, true), (3, true)] k))
    ∧ (AbstractEnvironment.mergeWith
        (fun a b => (a || b, !a && b)) false
        (.mk [(1, true), (2, false)] none)
        (.mk [(2, true), (3, true)] (some (.mk [(4, true)] none)))).1.parentOf =
          some (AbstractEnvironment.mk [(4, true)] none)
    ∧ (AbstractEnvironment.mergeWith
        (fun a b => (a || b, !a && b)) false
        (.mk [(1, true), (2, false)] none)
        (.mk ([(2, true), (3, true)] : List (Nat × Bool))
          (some (.mk [(4, true)] none)))).2 = true := by
  have h := c1_env_merge_algorithm (K := Nat) (V := Bool)
    (fun a b => (a || b, !a && b)) false
    [(1, true), (2, false)] [(2, true), (3, true)]
    none (some (.mk [(4, true)] none)) (by decide)
  exact ⟨h.1, h.2.1, h.2.2.2 _ rfl rfl⟩

/-! ## Merge symmetry (C2) -/

/-- Two environments agree on every key's binding at every level of their
parent chains (the spec's "agree on every key's merged value, modulo object
identity"). -/
def sameBindings {K V : Type} [DecidableEq K] :
    AbstractEnvironment K V → AbstractEnvironment K V → Prop
  | .mk e p, .mk e' p' =>
    (∀ k, lookupA e k = lookupA e' k) ∧
    (match p, p' with
     | none, none => True
     | some q, some q' => sameBindings q q'
     | _, _ => False)

/-- Every level of the environment has duplicate-free keys — the invariant
`std::map` maintains for `env_`. -/
def AbstractEnvironment.wfKeys {K V : Type} :
    AbstractEnvironment K V → Prop
  | .mk env p =>
    (keysA env).Nodup ∧
    (match p with
     | none => True
     | some q => AbstractEnvironment.wfKeys q)

theorem sameBindings_mk {K V : Type} [DecidableEq K]
    (e e' : List (K × V)) (p p' : Option (AbstractEnvironment K V)) :
    sameBindings (.mk e p) (.mk e' p') ↔
      ((∀ k, lookupA e k = lookupA e' k) ∧
       (match p, p' with
        | none, none => True
        | some q, some q' => sameBindings q q'
        | _, _ => False)) := by
  rw [sameBindings.eq_def]

theorem wfKeys_mk {K V : Type}
    (env : List (K × V)) (p : Option (AbstractEnvironment K V)) :
    AbstractEnvironment.wfKeys (.mk env p) ↔
      ((keysA env).Nodup ∧
       (match p with
        | none => True
        | some q => AbstractEnvironment.wfKeys q)) := by
  rw [AbstractEnvironment.wfKeys.eq_def]

theorem sameBindings_refl {K V : Type} [DecidableEq K] :
    ∀ e : AbstractEnvironment K V, sameBindings e e := by
  intro e
  induction e using env_induction with
  | h1 env => exact (sameBindings_mk _ _ _ _).mpr ⟨fun _ => rfl, trivial⟩
  | h2 env q ih => exact (sameBindings_mk _ _ _ _).mpr ⟨fun _ => rfl, ih⟩

theorem sameBindings_of {K V : Type} [DecidableEq K]
    (e e' : AbstractEnvironment K V)
    (h1 : ∀ k, lookupA e.entries k = lookupA e'.entries k)
    (h2 : match e.parentOf, e'.parentOf with
          | none, none => True
          | some q, some q' => sameBindings q q'
          | _, _ => False) : sameBindings e e' := by
  obtain ⟨env, p⟩ := e
  obtain ⟨env', p'⟩ := e'
  exact (sameBindings_mk _ _ _ _).mpr ⟨h1, h2⟩

/-- Claim C2 — environment merge is symmetric in its result: with a
deterministic, commutative value merge, `A.mergeWith(B)` and `B.mergeWith(A)`
(each from the original operands) agree on every key's merged value at every
level of the parent chain. -/
theorem c2_env_merge_symmetric {K V : Type} [DecidableEq K]
    (mv : V → V → V × Bool) (absent : V)
    (hcomm : ∀ a b, (mv a b).1 = (mv b a).1) :
    ∀ A B : AbstractEnvironment K V, A.wfKeys → B.wfKeys →
      sameBindings (A.mergeWith mv absent B).1 (B.mergeWith mv absent A).1 := by
  intro A
  induction A using env_induction with
  | h1 env =>
    intro B hA hB
    obtain ⟨oenv, op⟩ := B
    rw [wfKeys_mk] at hA hB
    apply sameBindings_of
    · intro k
      rw [mergeWith_lookup mv absent env oenv none op hB.1]
      rw [mergeWith_lookup mv absent oenv env op none hA.1]
      cases h1 : lookupA env k <;> cases h2 : lookupA oenv k <;>
        simp [specMergedBinding, hcomm]
    · rw [mergeWith_parent, mergeWith_parent]
      cases op with
      | none => trivial
      | some q => exact sameBindings_refl q
  | h2 env q ih =>
    intro B hA hB
    obtain ⟨oenv, op⟩ := B
    rw [wfKeys_mk] at hA hB
    apply sameBindings_of
    · intro k
      rw [mergeWith_lookup mv absent env oenv (some q) op hB.1]
      rw [mergeWith_lookup mv absent oenv env op (some q) hA.1]
      cases h1 : lookupA env k <;> cases h2 : lookupA oenv k <;>
        simp [specMergedBinding, hcomm]
    · rw [mergeWith_parent, mergeWith_parent]
      cases op with
      | none => exact sameBindings_refl q
      | some q' => exact ih q' hA.2 hB.2

/-- Witness for C2: the Boolean or-domain is commutative; two concrete
two-level environments. -/
theorem c2_env_merge_symmetric_witness :
    sameBindings
      ((AbstractEnvironment.mk [(1, true), (2, false)]
          (some (.mk [(5, true)] none))).mergeWith
        (fun a b => (a || b, !a && b)) false
        (.mk ([(2, true), (3, true)] : List (Nat × Bool)) none)).1
      ((AbstractEnvironment.mk ([(2, true), (3, true)] : List (Nat × Bool))
          none).mergeWith
        (fun a b => (a || b, !a && b)) false
        (.mk [(1, true), (2, false)] (some (.mk [(5, true)] none)))).1 :=
  c2_env_merge_symmetric (fun a b => (a || b, !a && b)) false
    (by decide)
    (.mk [(1, true), (2, false)] (some (.mk [(5, true)] none)))
    (.mk [(2, true), (3, true)] none)
    ⟨by decide, by exact ⟨by decide, trivial⟩⟩
    ⟨by decide, trivial⟩

/-! ## Stack merge characterization (C3) -/

theorem stackMergeLoop_eq {V : Type} (mv : V → V → V × Bool) :
    ∀ s o : List V, s.length = o.length →
      stackMergeLoop mv s o =
        (List.zipWith (fun a b => (mv a b).1) s o,
         (s.zip o).any fun p => (mv p.1 p.2).2) := by
  intro s
  induction s with
  | nil =>
    intro o h
    cases o with
    | nil => rfl
    | cons b o' => simp at h
  | cons a s' ih =>
    intro o h
    cases o with
    | nil => simp at h
    | cons b o' =>
      simp only [List.length_cons, Nat.succ.injEq] at h
      simp [stackMergeLoop, ih o' h]

/-- Claim C3 — `AbstractStack::mergeWith` on equal-depth stacks merges
element-wise and reports a change iff at least one indexed pair's value merge
reported one; unequal depths hit the fatal assertion (modelled `none`), not a
normal return. -/
theorem c3_stack_merge {V : Type} (mv : V → V → V × Bool)
    (s o : AbstractStack V) :
    (s.depth = o.depth →
      AbstractStack.mergeWith mv s o =
        some (List.zipWith (fun a b => (mv a b).1) s o,
              (s.zip o).any fun p => (mv p.1 p.2).2))
    ∧ (s.depth = o.depth →
        (∀ r, AbstractStack.mergeWith mv s o = some r →
          (r.2 = true ↔ ∃ p ∈ s.zip o, (mv p.1 p.2).2 = true)))
    ∧ (s.depth ≠ o.depth → AbstractStack.mergeWith mv s o = none) := by
  refine ⟨?_, ?_, ?_⟩
  · intro h
    have h' : s.length = o.length := h
    simp only [AbstractStack.mergeWith, if_pos h']
    rw [stackMergeLoop_eq mv s o h']
  · intro h r hr
    have h' : s.length = o.length := h
    simp only [AbstractStack.mergeWith, if_pos h'] at hr
    rw [stackMergeLoop_eq mv s o h'] at hr
    cases hr
    simp [List.any_eq_true]
  · intro h
    have h' : ¬s.length = o.length := h
    simp [AbstractStack.mergeWith, h']

/-- Witness for C3: the Boolean or-domain on two equal-depth stacks and one
mismatched pair. -/
theorem c3_stack_merge_witness :
    (AbstractStack.mergeWith (fun a b => (a || b, !a && b))
        ([false, true] : AbstractStack Bool) [true, true] =
      some ([true, true], true))
    ∧ (AbstractStack.mergeWith (fun a b => (a || b, !a && b))
        ([false] : AbstractStack Bool) [true, true] = none) := by
  constructor
  · have h := (c3_stack_merge (fun a b => (a || b, !a && b))
      ([false, true] : AbstractStack Bool) [true, true]).1 (by decide)
    rw [h]
    rfl
  · exact (c3_stack_merge (fun a b => (a || b, !a && b))
      ([false] : AbstractStack Bool) [true, true]).2.2 (by decide)

/-! ## Environment lookup (C8) and bracket operators (C10) -/

theorem find_mk {K V : Type} [DecidableEq K] (topv : V)
    (env : List (K × V)) (p : Option (AbstractEnvironment K V)) (k : K) :
    AbstractEnvironment.find topv (.mk env p) k =
      (match lookupA env k with
       | none =>
         (match p with
          | some par => AbstractEnvironment.find topv par k
          | none => topv)
       | some v => v) := by
  cases p <;> cases hl : lookupA env k <;>
    simp [AbstractEnvironment.find, hl]

theorem boundInChain_mk {K V : Type} [DecidableEq K]
    (env : List (K × V)) (p : Option (AbstractEnvironment K V)) (k : K) :
    AbstractEnvironment.boundInChain (.mk env p) k =
      (match lookupA env k with
       | some _ => true
       | none =>
         (match p with
          | some par => AbstractEnvironment.boundInChain par k
          | none => false)) := by
  cases p <;> cases hl : lookupA env k <;>
    simp [AbstractEnvironment.boundInChain, hl]

theorem find_eq_top_of_unbound {K V : Type} [DecidableEq K] (topv : V) (k : K) :
    ∀ e : AbstractEnvironment K V, e.boundInChain k = false →
      AbstractEnvironment.find topv e k = topv := by
  intro e
  induction e using env_induction with
  | h1 env =>
    intro h
    rw [boundInChain_mk] at h
    rw [find_mk]
    cases hl : lookupA env k with
    | none => rfl
    | some v => rw [hl] at h; simp at h
  | h2 env q ih =>
    intro h
    rw [boundInChain_mk] at h
    rw [find_mk]
    cases hl : lookupA env k with
    | none =>
      rw [hl] at h
      exact ih h
    | some v => rw [hl] at h; simp at h

/-- Claim C8 — `AbstractEnvironment::find`: a locally bound key returns the
local value; otherwise the parent chain is searched recursively; a key bound
nowhere in the chain yields the domain's `top()`. -/
theorem c8_env_find {K V : Type} [DecidableEq K] (topv : V)
    (env : List (K × V)) (p : Option (AbstractEnvironment K V)) (k : K) :
    (∀ v, lookupA env k = some v →
      AbstractEnvironment.find topv (.mk env p) k = v)
    ∧ (∀ par, lookupA env k = none → p = some par →
        AbstractEnvironment.find topv (.mk env p) k =
          AbstractEnvironment.find topv par k)
    ∧ (AbstractEnvironment.boundInChain (.mk env p) k = false →
        AbstractEnvironment.find topv (.mk env p) k = topv) := by
  refine ⟨?_, ?_, find_eq_top_of_unbound topv k _⟩
  · intro v hv
    rw [find_mk, hv]
  · intro par hnone hp
    subst hp
    rw [find_mk, hnone]

/-- Witness for C8: a two-level chain where key 1 is local, key 2 is bound in
the parent only and key 3 is bound nowhere. -/
theorem c8_env_find_witness :
    (AbstractEnvironment.find 99
        (.mk [(1, 10)] (some (.mk ([(2, 20)] : List (Nat × Nat)) none))) 1 = 10)
    ∧ (AbstractEnvironment.find 99
        (.mk [(1, 10)] (some (.mk ([(2, 20)] : List (Nat × Nat)) none))) 2 =
       AbstractEnvironment.find 99 (.mk ([(2, 20)] : List (Nat × Nat)) none) 2)
    ∧ (AbstractEnvironment.find 99
        (.mk [(1, 10)] (some (.mk ([(2, 20)] : List (Nat × Nat)) none))) 3 = 99) := by
  refine ⟨?_, ?_, ?_⟩
  · exact (c8_env_find 99 [(1, 10)]
      (some (.mk [(2, 20)] none)) 1).1 10 (by decide)
  · exact (c8_env_find 99 [(1, 10)]
      (some (.mk [(2, 20)] none)) 2).2.1 _ (by decide) rfl
  · exact (c8_env_find 99 [(1, 10)]
      (some (.mk [(2, 20)] none)) 3).2.2 (by decide)

/-- Claim C10 — unlike `find`, `operator[]` never consults the parent chain:
when the local map misses the key, the const overload returns `top()` for
every possible parent (including one that binds the key), and the non-const
overload inserts a local `top()` binding (so `has` becomes true) and returns
it. -/
theorem c10_env_bracket {K V : Type} [DecidableEq K] (topv : V)
    (env : List (K × V)) (p : Option (AbstractEnvironment K V)) (k : K)
    (h : lookupA env k = none) :
    AbstractEnvironment.getConst topv (.mk env p) k = topv
    ∧ (AbstractEnvironment.getMut topv (.mk env p) k).1.has k = true
    ∧ (AbstractEnvironment.getMut topv (.mk env p) k).2 = topv
    ∧ lookupA (AbstractEnvironment.getMut topv (.mk env p) k).1.entries k =
        some topv := by
  refine ⟨?_, ?_, ?_, ?_⟩ <;>
    simp [AbstractEnvironment.getConst, AbstractEnvironment.getMut,
      AbstractEnvironment.has, AbstractEnvironment.entries, insertA, lookupA, h]

/-- Witness for C10: key 7 unbound locally but bound to 5 in the parent;
the const bracket still answers `top()` = 42. -/
theorem c10_env_bracket_witness :
    AbstractEnvironment.getConst 42
      (.mk [(1, 10)] (some (.mk ([(7, 5)] : List (Nat × Nat)) none))) 7 = 42
    ∧ (AbstractEnvironment.getMut 42
        (.mk [(1, 10)] (some (.mk ([(7, 5)] : List (Nat × Nat)) none))) 7).1.has 7
        = true := by
  have h := c10_env_bracket 42 [(1, 10)]
    (some (.mk ([(7, 5)] : List (Nat × Nat)) none)) 7 (by decide)
  exact ⟨h.1, h.2.1⟩

/-! ## Dispatcher (framework.h, lines 23–71)

The dispatcher's private success flag is a `Bool`; subclass logic can affect
it only through `fail()`, so a `doDispatch` invocation is abstracted by the
number of times it calls `fail()` at a given location. -/

/-- A dispatcher: how many times the subclass's `doDispatch` calls `fail()`
at each location. -/
structure Dispatcher where
  failCalls : Nat → Nat

/-- `Dispatcher::fail` (framework.h:56): sets the success flag to false. -/
def Dispatcher.fail (_flag : Bool) : Bool := false

/-- `Dispatcher::dispatch` (framework.h:36-41): reset the success flag to
true, run `doDispatch` (applying `fail` once per call the logic makes), and
return the flag.  Takes the previous flag value and returns the result
together with the new flag state. -/
def Dispatcher.dispatch (d : Dispatcher) (_prev : Bool) (ins : Nat) :
    Bool × Bool :=
  let s := true
  let s := Dispatcher.fail^[d.failCalls ins] s
  (s, s)

theorem fail_iterate_false (n : Nat) : Dispatcher.fail^[n] false = false := by
  induction n with
  | zero => rfl
  | succ m ih => rw [Function.iterate_succ_apply, Dispatcher.fail, ih]

/-- Claim C9 — `dispatch` resets the success flag to true on every call (its
result is independent of the previous flag state) and returns false iff
`fail()` was called during that invocation; with no `fail()` call it returns
true. -/
theorem c9_dispatch_contract (d : Dispatcher) :
    (∀ prev prev' ins, d.dispatch prev ins = d.dispatch prev' ins)
    ∧ (∀ prev ins, (d.dispatch prev ins).1 = false ↔ 0 < d.failCalls ins)
    ∧ (∀ prev ins, d.failCalls ins = 0 → (d.dispatch prev ins).1 = true) := by
  have key : ∀ n, Dispatcher.fail^[n] true = decide (n = 0) := by
    intro n
    cases n with
    | zero => rfl
    | succ m =>
      rw [Function.iterate_succ_apply, Dispatcher.fail, fail_iterate_false]
      simp
  refine ⟨fun _ _ _ => rfl, ?_, ?_⟩
  · intro prev ins
    simp only [Dispatcher.dispatch, key]
    constructor
    · intro h
      simp at h
      omega
    · intro h
      simp
      omega
  · intro prev ins h
    simp only [Dispatcher.dispatch, key, h]
    rfl

/-- Witness for C9: a dispatcher whose logic calls `fail()` once per location
index: no call at location 0 (dispatch true), two calls at location 2
(dispatch false), independent of the prior flag. -/
theorem c9_dispatch_contract_witness :
    (Dispatcher.dispatch ⟨fun i => i⟩ false 0).1 = true
    ∧ (Dispatcher.dispatch ⟨fun i => i⟩ true 2).1 = false := by
  have h := c9_dispatch_contract ⟨fun i => i⟩
  exact ⟨h.2.2 false 0 rfl, (h.2.1 true 2).mpr (by decide)⟩

/-! ## The code interface (spec §6)

The drivers consume the bytecode only through classification predicates,
jump targets, successor sets and sequence boundaries; locations are modelled
as `Nat` indices `0, 1, ..., size-1` with `begin = 0` and
`rbegin = size - 1`. -/

/-- The CodeEditor contract the drivers consume (analysis.h uses
`isLabel`, `isJmp`, `isUncondJmp`, `isExitPoint`, `isEntryPoint`, `target`,
`next`, `begin`, `end`, `rbegin`). -/
structure Code where
  size : Nat
  isLabel : Nat → Bool
  isJmp : Nat → Bool
  isUncondJmp : Nat → Bool
  isExitPoint : Nat → Bool
  isEntryPoint : Nat → Bool
  target : Nat → Nat
  next : Nat → List Nat

/-- Driver-owned mutable state of a forward or backward analysis run: the
current state (null when no branch is live), the worklist, the merge-point
table and the final state. -/
structure AnalysisState (S : Type) where
  current : Option S
  q : List Nat
  mergePoints : List (Nat × S)
  finalSt : Option S
deriving DecidableEq

/-- The merge-point block shared by both drivers (analysis.h:121-143 forward,
396-417 backward): store a clone of the incoming state if no snapshot exists
(asserting a live incoming state), adopt the snapshot if no incoming state,
otherwise merge incoming into the snapshot — continuing with a clone of it on
change and terminating the branch (second component false) otherwise. -/
def mergePointStep {S : Type} (merge : S → S → S × Bool) (ins : Nat)
    (st : AnalysisState S) : Option (AnalysisState S × Bool) :=
  match lookupA st.mergePoints ins with
  | none =>
    match st.current with
    | none => none
    | some cur =>
      some ({ st with mergePoints := insertA st.mergePoints ins cur }, true)
  | some stored =>
    match st.current with
    | none => some ({ st with current := some stored }, true)
    | some cur =>
      let m := merge stored cur
      if m.2 then
        some ({ st with mergePoints := updateA st.mergePoints ins m.1,
                        current := some m.1 }, true)
      else
        some ({ st with mergePoints := updateA st.mergePoints ins m.1,
                        current := none }, false)

/-- `ForwardAnalysis::shouldJump` (analysis.h:188-195): if the target has no
stored snapshot, store a clone of the current state and jump; otherwise jump
iff merging the current state into the stored snapshot changes it. -/
def fwdShouldJump {S : Type} (merge : S → S → S × Bool)
    (mp : List (Nat × S)) (cur : S) (l : Nat) : List (Nat × S) × Bool :=
  match lookupA mp l with
  | none => (insertA mp l cur, true)
  | some stored =>
    let m := merge stored cur
    (updateA mp l m.1, m.2)

/-- The inner `while (true)` walk of `ForwardAnalysis::doAnalyze`
(analysis.h:119-170), starting at instruction `ins`.  `none` is a fatal
path: an assertion failure, a dispatch on a null current state, or fuel
exhaustion standing in for non-termination. -/
def fwdWalk {S : Type} (c : Code) (merge : S → S → S × Bool)
    (eff : Nat → S → S) : Nat → Nat → AnalysisState S →
    Option (AnalysisState S)
  | 0, _, _ => none
  | fuel+1, ins, st =>
    match if c.isLabel ins then mergePointStep merge ins st
          else some (st, true) with
    | none => none
    | some (st1, false) => some st1
    | some (st1, true) =>
      match st1.current with
      | none => none
      | some cur0 =>
        let cur := eff ins cur0
        if c.isJmp ins then
          let l := c.target ins
          let sj := fwdShouldJump merge st1.mergePoints cur l
          let q' := if sj.2 then l :: st1.q else st1.q
          if c.isUncondJmp ins then
            some { st1 with current := none, mergePoints := sj.1, q := q' }
          else
            fwdWalk c merge eff fuel (ins+1)
              { st1 with current := some cur, mergePoints := sj.1, q := q' }
        else if c.isExitPoint ins then
          match st1.finalSt with
          | none => some { st1 with current := none, finalSt := some cur }
          | some f =>
            some { st1 with current := none, finalSt := some (merge f cur).1 }
        else
          fwdWalk c merge eff fuel (ins+1) { st1 with current := some cur }

/-- The outer worklist loop of `ForwardAnalysis::doAnalyze`
(analysis.h:116-171): pop the front location and walk from it; the current
state is whatever the previous branch left behind. -/
def fwdRun {S : Type} (c : Code) (merge : S → S → S × Bool)
    (eff : Nat → S → S) : Nat → AnalysisState S → Option (AnalysisState S)
  | 0, st => match st.q with | [] => some st | _ :: _ => none
  | fuel+1, st =>
    match st.q with
    | [] => some st
    | ins :: rest =>
      match fwdWalk c merge eff (fuel+1) ins { st with q := rest } with
      | none => none
      | some st' => fwdRun c merge eff fuel st'

/-- `ForwardAnalysis::doAnalyze` (analysis.h:111-172): clone the initial
state into the current state once, seed the worklist with the entry location
and run the worklist loop. -/
def forwardAnalyze {S : Type} (c : Code) (merge : S → S → S × Bool)
    (eff : Nat → S → S) (init : S) (fuel : Nat) :
    Option (AnalysisState S) :=
  fwdRun c merge eff fuel
    { current := some init, q := [0], mergePoints := [], finalSt := none }

/-- The algorithm the claim C4 sentence describes: identical to `fwdRun`
except that on every pop the current state is reset to a clone of the
initial state before walking. -/
def fwdRunResetEachPop {S : Type} (c : Code) (merge : S → S → S × Bool)
    (eff : Nat → S → S) (init : S) : Nat → AnalysisState S →
    Option (AnalysisState S)
  | 0, st => match st.q with | [] => some st | _ :: _ => none
  | fuel+1, st =>
    match st.q with
    | [] => some st
    | ins :: rest =>
      match fwdWalk c merge eff (fuel+1) ins
          { st with q := rest, current := some init } with
      | none => none
      | some st' => fwdRunResetEachPop c merge eff init fuel st'

/-- `forwardAnalyze` as claim C4 words it: current state re-cloned from the
initial state at every pop. -/
def forwardAnalyzeResetEachPop {S : Type} (c : Code)
    (merge : S → S → S × Bool) (eff : Nat → S → S) (init : S) (fuel : Nat) :
    Option (AnalysisState S) :=
  fwdRunResetEachPop c merge eff init fuel
    { current := some init, q := [0], mergePoints := [], finalSt := none }

/-! ## C4: current-state handling at worklist pops -/

/-- The Boolean or-domain: merge is disjunction, the change flag reports a
false-to-true flip of the own value. -/
def orMerge : Bool → Bool → Bool × Bool := fun a b => (a || b, !a && b)

/-- A five-instruction program: entry effect at 0, an unconditional jump at 1
targeting the label at 3, dead code at 2, and an exit at 4. -/
def uncondJumpProgram : Code where
  size := 5
  isLabel := fun i => i == 3
  isJmp := fun i => i == 1
  isUncondJmp := fun i => i == 1
  isExitPoint := fun i => i == 4
  isEntryPoint := fun i => i == 0
  target := fun _ => 3
  next := fun i => [i + 1]

/-- Receiver effect: instruction 0 raises the state to true, all others leave
it unchanged. -/
def entrySetEff : Nat → Bool → Bool := fun i s => if i == 0 then true else s

/-- Counterexample to claim C4 as stated: running the real driver (current
state cloned from the initial state once, before the loop) and the variant
the claim describes (current state re-cloned from the initial state at every
pop) give different results on `uncondJumpProgram` — the real driver
propagates the raised state through the label and reaches the exit with
final state `true`, while the reset-at-every-pop variant merges the initial
state into the stored snapshot, sees no change, kills the branch and never
produces a final state. -/
theorem c4_counterexample :
    forwardAnalyze uncondJumpProgram orMerge entrySetEff false 10 ≠
      forwardAnalyzeResetEachPop uncondJumpProgram orMerge entrySetEff
        false 10 := by
  decide

theorem mergePointStep_false_current {S : Type} (merge : S → S → S × Bool)
    (ins : Nat) (st st1 : AnalysisState S)
    (h : mergePointStep merge ins st = some (st1, false)) :
    st1.current = none := by
  unfold mergePointStep at h
  split at h
  · split at h
    · cases h
    · cases h
  · split at h
    · cases h
    · dsimp only at h
      split at h
      · cases h
      · cases h
        rfl

theorem fwdWalk_current_none {S : Type} (c : Code) (merge : S → S → S × Bool)
    (eff : Nat → S → S) :
    ∀ fuel ins st st', fwdWalk c merge eff fuel ins st = some st' →
      st'.current = none := by
  intro fuel
  induction fuel with
  | zero => intro ins st st' h; cases h
  | succ n ih =>
    intro ins st st' h
    rw [fwdWalk] at h
    split at h
    · cases h
    · rename_i st1 heq
      cases h
      split at heq
      · exact mergePointStep_false_current merge ins st _ heq
      · cases heq
    · rename_i st1 heq
      split at h
      · cases h
      · rename_i cur0 hcur
        split at h
        · split at h
          · cases h
            rfl
          · exact ih _ _ _ h
        · split at h
          · split at h
            · cases h
              rfl
            · cases h
              rfl
          · exact ih _ _ _ h

/-- Claim C4, amended — the current state is set from a clone of the initial
state once, before the worklist loop (first conjunct, the definition of
`ForwardAnalysis::doAnalyze`); every branch walk ends with the current state
discarded, so each pop after the first begins with no live current state
(second conjunct); and a popped label whose snapshot exists then adopts a
clone of the stored snapshot rather than the initial state (third
conjunct). -/
theorem c4_amended_pop_state_discipline {S : Type} (c : Code)
    (merge : S → S → S × Bool) (eff : Nat → S → S) :
    (∀ init fuel, forwardAnalyze c merge eff init fuel =
       fwdRun c merge eff fuel
         { current := some init, q := [0], mergePoints := [], finalSt := none })
    ∧ (∀ fuel ins st st', fwdWalk c merge eff fuel ins st = some st' →
        st'.current = none)
    ∧ (∀ ins (st : AnalysisState S) s, st.current = none →
        lookupA st.mergePoints ins = some s →
        mergePointStep merge ins st = some ({ st with current := some s }, true)) := by
  refine ⟨fun _ _ => rfl, fwdWalk_current_none c merge eff, ?_⟩
  intro ins st s h1 h2
  unfold mergePointStep
  rw [h2, h1]

/-- Witness for the amended C4: on `uncondJumpProgram`, the branch walked
from the entry ends with no current state, and the popped label 3 with
stored snapshot `true` adopts that snapshot. -/
theorem c4_amended_pop_state_discipline_witness :
    (AnalysisState.current
        (⟨none, [3], [(3, true)], none⟩ : AnalysisState Bool) = none)
    ∧ mergePointStep orMerge 3
        (⟨none, [], [(3, true)], none⟩ : AnalysisState Bool) =
      some (⟨some true, [], [(3, true)], none⟩, true) := by
  have h := c4_amended_pop_state_discipline uncondJumpProgram orMerge entrySetEff
  exact ⟨h.2.1 10 0 ⟨some false, [], [], none⟩ ⟨none, [3], [(3, true)], none⟩
           (by decide),
         h.2.2 3 ⟨none, [], [(3, true)], none⟩ true rfl (by decide)⟩

/-! ## C5: jump handling in the forward walk -/

/-- Claim C5 — at a jump, the target is enqueued iff `shouldJump` reports it:
when the target has no stored snapshot, a snapshot is created as a clone of
the current state and the jump is always taken (first conjunct); when it has
one, the jump is taken iff merging the current state into it changes it
(second conjunct).  In the walk, an unconditional jump enqueues per
`shouldJump` and then terminates the branch with the current state discarded
(third conjunct), while a conditional jump enqueues the same way and falls
through to the next instruction (fourth conjunct). -/
theorem c5_should_jump {S : Type} (c : Code) (merge : S → S → S × Bool)
    (eff : Nat → S → S) :
    (∀ (mp : List (Nat × S)) cur l, lookupA mp l = none →
        fwdShouldJump merge mp cur l = (insertA mp l cur, true))
    ∧ (∀ (mp : List (Nat × S)) cur l stored, lookupA mp l = some stored →
        fwdShouldJump merge mp cur l =
          (updateA mp l (merge stored cur).1, (merge stored cur).2))
    ∧ (∀ fuel ins (st : AnalysisState S) cur,
        c.isLabel ins = false → c.isJmp ins = true →
        c.isUncondJmp ins = true → st.current = some cur →
        fwdWalk c merge eff (fuel+1) ins st =
          some { st with
                 current := none,
                 mergePoints := (fwdShouldJump merge st.mergePoints
                   (eff ins cur) (c.target ins)).1,
                 q := if (fwdShouldJump merge st.mergePoints
                     (eff ins cur) (c.target ins)).2
                   then c.target ins :: st.q else st.q })
    ∧ (∀ fuel ins (st : AnalysisState S) cur,
        c.isLabel ins = false → c.isJmp ins = true →
        c.isUncondJmp ins = false → st.current = some cur →
        fwdWalk c merge eff (fuel+1) ins st =
          fwdWalk c merge eff fuel (ins+1)
            { st with
              current := some (eff ins cur),
              mergePoints := (fwdShouldJump merge st.mergePoints
                (eff ins cur) (c.target ins)).1,
              q := if (fwdShouldJump merge st.mergePoints
                  (eff ins cur) (c.target ins)).2
                then c.target ins :: st.q else st.q }) := by
  refine ⟨?_, ?_, ?_, ?_⟩
  · intro mp cur l h
    unfold fwdShouldJump
    rw [h]
  · intro mp cur l stored h
    unfold fwdShouldJump
    rw [h]
  · intro fuel ins st cur hl hj hu hcur
    rw [fwdWalk, hl]
    simp only [Bool.false_eq_true, if_false, hcur, hj, hu, if_true]
  · intro fuel ins st cur hl hj hu hcur
    rw [fwdWalk, hl]
    simp only [Bool.false_eq_true, if_false, hcur, hj, hu, if_true]

/-- Witness for C5 at `uncondJumpProgram`'s unconditional jump (location 1):
no snapshot for target 3 exists, so one is created from the current state
and 3 is enqueued; the branch ends with the current state discarded. -/
theorem c5_should_jump_witness :
    fwdWalk uncondJumpProgram orMerge entrySetEff 10 1
      (⟨some true, [], [], none⟩ : AnalysisState Bool) =
      some { (⟨some true, [], [], none⟩ : AnalysisState Bool) with
             current := none,
             mergePoints := (fwdShouldJump orMerge []
               (entrySetEff 1 true) (uncondJumpProgram.target 1)).1,
             q := if (fwdShouldJump orMerge []
                 (entrySetEff 1 true) (uncondJumpProgram.target 1)).2
               then uncondJumpProgram.target 1 :: [] else [] } :=
  (c5_should_jump uncondJumpProgram orMerge entrySetEff).2.2.1 9 1
    ⟨some true, [], [], none⟩ true (by decide) (by decide) (by decide) rfl

/-! ## Backward analysis driver (analysis.h, lines 322–495) -/

/-- The pre-pass record of jump origins (analysis.h:375-378): for a label
`l`, every jump instruction targeting `l`, in program order. -/
def jumpOrigins (c : Code) (l : Nat) : List Nat :=
  (List.range c.size).filter (fun i => c.isJmp i && c.target i == l)

/-- `BackwardAnalysis::shouldFollowJumpFrom` (analysis.h:481-488): the
merge-point table is keyed by the jump origin; no snapshot stores a clone of
the current state and follows, otherwise follow iff the merge changes the
snapshot. -/
def shouldFollowJumpFrom {S : Type} (merge : S → S → S × Bool)
    (mp : List (Nat × S)) (cur : S) (origin : Nat) :
    List (Nat × S) × Bool :=
  match lookupA mp origin with
  | none => (insertA mp origin cur, true)
  | some stored =>
    let m := merge stored cur
    (updateA mp origin m.1, m.2)

/-- The label block's origin loop (analysis.h:436-440): for each recorded
origin, consult `shouldFollowJumpFrom` and push the origin to the front of
the worklist when it says so. -/
def followOrigins {S : Type} (merge : S → S → S × Bool) (cur : S) :
    List Nat → List (Nat × S) → List Nat → List (Nat × S) × List Nat
  | [], mp, q => (mp, q)
  | o :: rest, mp, q =>
    let sf := shouldFollowJumpFrom merge mp cur o
    followOrigins merge cur rest sf.1 (if sf.2 then o :: q else q)

/-- The inner `while (true)` walk of `BackwardAnalysis::doAnalyze`
(analysis.h:391-452), walking backward from instruction `ins`.  Exit points
(re)initialize the current state from the initial state, asserting no live
state; jump instructions are the backward merge points; entries fold into
the final state; labels enqueue their recorded origins and fall through to
the preceding instruction only when it structurally flows into the label.
`none` is a fatal path (assertion failure, dispatch on a dead state, fuel
exhaustion). -/
def bwdWalk {S : Type} (c : Code) (merge : S → S → S × Bool)
    (eff : Nat → S → S) (init : S) : Nat → Nat → AnalysisState S →
    Option (AnalysisState S)
  | 0, _, _ => none
  | fuel+1, ins, st =>
    match if c.isExitPoint ins then
            (match st.current with
             | none => some ({ st with current := some init }, true)
             | some _ => none)
          else if c.isJmp ins then mergePointStep merge ins st
          else some (st, true) with
    | none => none
    | some (st1, false) => some st1
    | some (st1, true) =>
      match st1.current with
      | none => none
      | some cur0 =>
        let cur := eff ins cur0
        if c.isEntryPoint ins then
          match st1.finalSt with
          | none => some { st1 with current := none, finalSt := some cur }
          | some f =>
            some { st1 with current := none, finalSt := some (merge f cur).1 }
        else if c.isLabel ins then
          let fo := followOrigins merge cur (jumpOrigins c ins)
            st1.mergePoints st1.q
          if c.isExitPoint (ins - 1) || !((c.next (ins - 1)).contains ins) then
            some { st1 with current := none, mergePoints := fo.1, q := fo.2 }
          else
            bwdWalk c merge eff init fuel (ins - 1)
              { st1 with current := some cur, mergePoints := fo.1, q := fo.2 }
        else
          bwdWalk c merge eff init fuel (ins - 1) { st1 with current := some cur }

/-- The outer worklist loop of `BackwardAnalysis::doAnalyze`
(analysis.h:387-453). -/
def bwdRun {S : Type} (c : Code) (merge : S → S → S × Bool)
    (eff : Nat → S → S) (init : S) : Nat → AnalysisState S →
    Option (AnalysisState S)
  | 0, st => match st.q with | [] => some st | _ :: _ => none
  | fuel+1, st =>
    match st.q with
    | [] => some st
    | ins :: rest =>
      match bwdWalk c merge eff init (fuel+1) ins { st with q := rest } with
      | none => none
      | some st' => bwdRun c merge eff init fuel st'

/-- `BackwardAnalysis::doAnalyze` (analysis.h:372-454): pre-pass seeding the
worklist with every exit point (pushed to the front in program order, so the
last exit is popped first), then the worklist loop; there is no live current
state before the first pop. -/
def backwardAnalyze {S : Type} (c : Code) (merge : S → S → S × Bool)
    (eff : Nat → S → S) (init : S) (fuel : Nat) :
    Option (AnalysisState S) :=
  bwdRun c merge eff init fuel
    { current := none,
      q := ((List.range c.size).filter (fun i => c.isExitPoint i)).reverse,
      mergePoints := [], finalSt := none }

/-- Claim C6 — in the backward walk, a label (that is not also an exit,
jump or entry point) first enqueues its recorded jump origins through
`shouldFollowJumpFrom`, and then terminates the branch with the current
state discarded exactly when the instruction preceding it is an exit point
or its successor set does not contain the label; otherwise the walk falls
through to the preceding instruction. -/
theorem c6_backward_label_fallthrough {S : Type} (c : Code)
    (merge : S → S → S × Bool) (eff : Nat → S → S) (init : S)
    (fuel ins : Nat) (st : AnalysisState S) (cur : S)
    (hexit : c.isExitPoint ins = false) (hjmp : c.isJmp ins = false)
    (hentry : c.isEntryPoint ins = false) (hlabel : c.isLabel ins = true)
    (hcur : st.current = some cur) (_hpos : 0 < ins) :
    bwdWalk c merge eff init (fuel+1) ins st =
      (if c.isExitPoint (ins - 1) || !((c.next (ins - 1)).contains ins) then
        some { st with
               current := none,
               mergePoints := (followOrigins merge (eff ins cur)
                 (jumpOrigins c ins) st.mergePoints st.q).1,
               q := (followOrigins merge (eff ins cur)
                 (jumpOrigins c ins) st.mergePoints st.q).2 }
      else
        bwdWalk c merge eff init fuel (ins - 1)
          { st with
            current := some (eff ins cur),
            mergePoints := (followOrigins merge (eff ins cur)
              (jumpOrigins c ins) st.mergePoints st.q).1,
            q := (followOrigins merge (eff ins cur)
              (jumpOrigins c ins) st.mergePoints st.q).2 }) := by
  rw [bwdWalk, hexit, hjmp]
  simp only [Bool.false_eq_true, if_false, hcur, hentry, hlabel, if_true]

/-- A four-instruction program for the backward walk: entry at 0, exit at 1,
a label at 2 whose only recorded origin is the unconditional jump at 3
targeting it.  The instruction preceding the label (the exit at 1) does not
flow into it. -/
def bwdLabelProgram : Code where
  size := 4
  isLabel := fun i => i == 2
  isJmp := fun i => i == 3
  isUncondJmp := fun i => i == 3
  isExitPoint := fun i => i == 1
  isEntryPoint := fun i => i == 0
  target := fun _ => 2
  next := fun i => [i + 1]

/-- Witness for C6: at `bwdLabelProgram`'s label 2, the origin 3 is enqueued
and — since instruction 1 is an exit point — the branch terminates with the
current state discarded. -/
theorem c6_backward_label_fallthrough_witness :
    bwdWalk bwdLabelProgram orMerge entrySetEff false 10 2
      (⟨some true, [], [], none⟩ : AnalysisState Bool) =
      (if bwdLabelProgram.isExitPoint (2 - 1)
          || !((bwdLabelProgram.next (2 - 1)).contains 2) then
        some { (⟨some true, [], [], none⟩ : AnalysisState Bool) with
               current := none,
               mergePoints := (followOrigins orMerge (entrySetEff 2 true)
                 (jumpOrigins bwdLabelProgram 2) [] []).1,
               q := (followOrigins orMerge (entrySetEff 2 true)
                 (jumpOrigins bwdLabelProgram 2) [] []).2 }
      else
        bwdWalk bwdLabelProgram orMerge entrySetEff false 9 (2 - 1)
          { (⟨some true, [], [], none⟩ : AnalysisState Bool) with
            current := some (entrySetEff 2 true),
            mergePoints := (followOrigins orMerge (entrySetEff 2 true)
              (jumpOrigins bwdLabelProgram 2) [] []).1,
            q := (followOrigins orMerge (entrySetEff 2 true)
              (jumpOrigins bwdLabelProgram 2) [] []).2 }) :=
  c6_backward_label_fallthrough bwdLabelProgram orMerge entrySetEff false 9 2
    ⟨some true, [], [], none⟩ true (by decide) (by decide) (by decide)
    (by decide) rfl (by decide)

/-! ## Backward instruction-retrieval cache (analysis.h, lines 519–606) -/

/-- The replay cache of `BackwardAnalysisIns`: the cached location and the
cached state (always live in the retrieval phase). -/
structure BwdCache (S : Type) where
  ins : Nat
  st : S
deriving DecidableEq

/-- `BackwardAnalysisIns::initializeCache` (analysis.h:560-565): set the
cached state to a clone of the initial state, set the cached location to the
reverse-begin location, then dispatch the instruction at the cached
location. -/
def bwdInsInitializeCache {S : Type} (c : Code) (eff : Nat → S → S)
    (init : S) : BwdCache S :=
  let cache : BwdCache S := { ins := c.size - 1, st := init }
  { cache with st := eff cache.ins cache.st }

/-- `BackwardAnalysisIns::advance` (analysis.h:569-584): move the cached
location to the previous instruction; if it is an exit point reload the
cached state from the initial state, else if it is a merge point (a jump)
with a stored fixpoint snapshot reload from the snapshot; then dispatch the
instruction at the (new) cached location. -/
def bwdInsAdvance {S : Type} (c : Code) (eff : Nat → S → S) (init : S)
    (mp : List (Nat × S)) (cache : BwdCache S) : BwdCache S :=
  let i := cache.ins - 1
  let s := if c.isExitPoint i then init
           else if c.isJmp i then
             match lookupA mp i with
             | some fixpoint => fixpoint
             | none => cache.st
           else cache.st
  { ins := i, st := eff i s }

/-- Claim C7 — the backward retrieval cache dispatches the instruction at
the cached location after every reset and after every step:
`initializeCache` leaves the cache at the reverse-begin location holding the
initial state with that location's effect already applied, and `advance`
moves to the previous location, reloads from the initial state at an exit
point or from the stored merge-point snapshot (when one exists) at a merge
point, and applies that location's effect to the reloaded state. -/
theorem c7_backward_cache_dispatch {S : Type} (c : Code) (eff : Nat → S → S)
    (init : S) (mp : List (Nat × S)) :
    (bwdInsInitializeCache c eff init =
      { ins := c.size - 1, st := eff (c.size - 1) init })
    ∧ (∀ cache : BwdCache S,
        (bwdInsAdvance c eff init mp cache).ins = cache.ins - 1)
    ∧ (∀ cache : BwdCache S,
        (bwdInsAdvance c eff init mp cache).st =
          eff (cache.ins - 1)
            (if c.isExitPoint (cache.ins - 1) then init
             else if c.isJmp (cache.ins - 1) then
               (lookupA mp (cache.ins - 1)).getD cache.st
             else cache.st)) := by
  refine ⟨rfl, fun _ => rfl, ?_⟩
  intro cache
  unfold bwdInsAdvance
  cases h : lookupA mp (cache.ins - 1) <;>
    simp [h]
